import Mathlib

/-!
Shallow embedding of `lampe/nn/flows.py`: the `NormalizingFlow` wrapper
(shape bookkeeping of `sample`) and the `MAF` builder (keyword-default
accumulation, architecture dispatch and transform-stack assembly).

Tensors are modelled at the level the code manipulates them:
shapes are lists of naturals, value vectors are lists of rationals,
keyword-argument dictionaries are association lists, and the transform
objects produced by the external `nflows` library are an inductive type of
descriptors recording exactly the constructor arguments the code passes.
The learnable parts (autoregressive conditioner networks) are opaque: their
forward/inverse semantics enter theorems as oracle parameters.
-/

namespace Lampe

/-! ### Shapes and the `sample` reshape logic -/

/-- A tensor shape, as `torch.Size`: a list of non-negative extents. -/
abbrev Shape := List Nat

/-- `torch.Size.numel`: the product of the extents. -/
def numel (s : Shape) : Nat := s.prod

/-- `Tensor.view`: succeeds exactly when the element counts agree,
returning the target shape. -/
def viewShape (src tgt : Shape) : Option Shape :=
  if numel src = numel tgt then some tgt else none

/-- Modelled from the spec: the external `nflows` flow container supplies
`_sample(n, context)`, which draws `n` independent samples per context row
and returns a flat batch holding, for each of the `numel(context.shape[:-1])`
context rows, `n` samples of `x_size` features. Only its shape is modelled. -/
def underSample (xSize n : Nat) (ctx : Shape) : Shape :=
  [numel ctx.dropLast * n, xSize]

/-- Shape behaviour of `NormalizingFlow.sample(y, shape)`:
`size = numel(shape)`, `x = _sample(size, y[None])`,
then `x.view(y.shape[:-1] + shape + x.shape[-1:])`. -/
def nfSampleShape (xSize : Nat) (yShape shape : Shape) : Option Shape :=
  let size := numel shape
  let x := underSample xSize size (1 :: yShape)
  viewShape x (yShape.dropLast ++ shape ++ x.drop (x.length - 1))

/-! ### Keyword-argument dictionaries -/

/-- A keyword-argument value: the code stores ints, floats, strings, bools,
int lists and an activation function under string keys. -/
inductive Val where
  | nat (n : Nat)
  | rat (q : ℚ)
  | str (s : String)
  | bool (b : Bool)
  | natList (l : List Nat)
  | fn (name : String)
deriving DecidableEq, Repr

/-- A Python `dict` of keyword arguments, observed only through lookup. -/
abbrev Kwargs := List (String × Val)

/-- Dictionary lookup: the most recent binding of a key wins. -/
def kget : Kwargs → String → Option Val
  | [], _ => none
  | (k0, v) :: kw, k => if k = k0 then some v else kget kw k

/-- `d[k] = v`: unconditional assignment. -/
def kset (kw : Kwargs) (k : String) (v : Val) : Kwargs := (k, v) :: kw

/-- `d.setdefault(k, v)`: assign only when the key is absent. -/
def ksetdefault (kw : Kwargs) (k : String) (v : Val) : Kwargs :=
  if (kget kw k).isSome then kw else kset kw k v

/-! ### Transform descriptors -/

/-- Elementwise vector division, as broadcasting `shift / scale`. -/
def vdiv (a b : List ℚ) : List ℚ := List.zipWith (fun x y => x / y) a b

/-- Elementwise vector negation, as `-t`. -/
def vneg (a : List ℚ) : List ℚ := a.map (fun x => -x)

/-- Elementwise reciprocal, as `1 / t`. -/
def vinv (a : List ℚ) : List ℚ := a.map (fun x => 1 / x)

/-- The transform objects the code constructs, as descriptors of the exact
constructor arguments passed to the external library. -/
inductive Transform where
  | pointwiseAffine (shift scale : List ℚ)
  | maskedAffineAutoregressive (features contextFeatures : Nat) (kwargs : Kwargs)
  | maskedPRQAutoregressive (features contextFeatures : Nat) (kwargs : Kwargs)
  | maskedUMNNAutoregressive (features contextFeatures : Nat) (kwargs : Kwargs)
  | randomPermutation (features : Nat) (perm : List Nat)
deriving DecidableEq, Repr

/-- The constructor arguments of an autoregressive transform, when the
descriptor is one (`none` for the pointwise affine and the permutation). -/
def Transform.arParams? : Transform → Option (Nat × Nat × Kwargs)
  | .maskedAffineAutoregressive f c kw => some (f, c, kw)
  | .maskedPRQAutoregressive f c kw => some (f, c, kw)
  | .maskedUMNNAutoregressive f c kw => some (f, c, kw)
  | _ => none

/-! ### The `MAF` builder -/

/-- The arguments of `MAF.__init__`, with the source defaults. -/
structure MAFArgs where
  xSize : Nat
  ySize : Nat
  architecture : String := "affine"
  numTransforms : Nat := 5
  moments : Option (List ℚ × List ℚ) := none
  kwargs : Kwargs := []
deriving Repr

/-- The five common `kwargs.setdefault` calls at the top of `MAF.__init__`. -/
def kwCommon (kw : Kwargs) : Kwargs :=
  ksetdefault (ksetdefault (ksetdefault (ksetdefault (ksetdefault kw
    "hidden_features" (.nat 64))
    "num_blocks" (.nat 2))
    "use_residual_blocks" (.bool false))
    "use_batch_norm" (.bool false))
    "activation" (.fn "relu")

/-- The keyword-argument dictionary after the architecture branch of
`MAF.__init__` (common defaults, then the per-architecture assignments). -/
def mafKw (a : MAFArgs) : Kwargs :=
  let kw := kwCommon a.kwargs
  if a.architecture = "PRQ" then
    ksetdefault (ksetdefault (kset kw "tails" (.str "linear"))
      "num_bins" (.nat 8))
      "tail_bound" (.rat 1)
  else if a.architecture = "UMNN" then
    ksetdefault (ksetdefault (ksetdefault kw
      "integrand_net_layers" (.natList [64, 64, 64]))
      "cond_size" (.nat 32))
      "nb_steps" (.nat 32)
  else
    kw

/-- The autoregressive transform instance `tf(features=x_size,
context_features=y_size, **kwargs)` built in the loop body: the chosen
class applied to the accumulated keyword arguments. -/
def mafAR (a : MAFArgs) : Transform :=
  if a.architecture = "PRQ" then
    .maskedPRQAutoregressive a.xSize a.ySize (mafKw a)
  else if a.architecture = "UMNN" then
    .maskedUMNNAutoregressive a.xSize a.ySize (mafKw a)
  else
    .maskedAffineAutoregressive a.xSize a.ySize (mafKw a)

/-- The optional standardization head: when `moments = (shift, scale)` is
given, `[PointwiseAffineTransform(-shift / scale, 1 / scale)]`. -/
def mafHead (a : MAFArgs) : List Transform :=
  match a.moments with
  | some (shift, scale) => [.pointwiseAffine (vneg (vdiv shift scale)) (vinv scale)]
  | none => []

/-- The `for _ in range(num_transforms)` loop: each iteration appends the
autoregressive transform and a freshly drawn random permutation. The draws
are supplied by `perms` (the `i`-th call of `RandomPermutation` receives
`perms i`); `i` is the iteration counter, `n` the remaining iterations. -/
def arLoop (ar : Transform) (xs : Nat) (perms : Nat → List Nat) : Nat → Nat → List Transform
  | _, 0 => []
  | i, n + 1 =>
      ar :: .randomPermutation xs (perms i) :: arLoop ar xs perms (i + 1) n

/-- The full transform list assembled by `MAF.__init__` and handed to the
`NormalizingFlow` constructor. -/
def mafTransforms (a : MAFArgs) (perms : Nat → List Nat) : List Transform :=
  mafHead a ++ arLoop (mafAR a) a.xSize perms 0 a.numTransforms

/-! ### Semantics of the assembled flow

The external transforms are opaque learnable objects; their forward and
inverse maps enter as oracles. `PointwiseAffineTransform(shift, scale)` is
given its concrete semantics (forward `x * scale + shift`, inverse
`(z - shift) / scale`, a constant log-abs-det depending only on the scale —
the latter abstract, since it is a real logarithm). Following `nflows`,
the composite's forward direction maps data to noise: `log_prob` applies
the listed transforms in order and adds the accumulated log-abs-det to the
base log-density of the result, while `sample` pushes base noise through
the inverses in reverse order. -/

/-- Forward value of one transform on input `x` with context `y`.
The pointwise affine computes `x * scale + shift` elementwise; every other
transform is evaluated by the oracle `ofwd`. -/
def tFwdVal (ofwd : Transform → List ℚ → List ℚ → List ℚ) :
    Transform → List ℚ → List ℚ → List ℚ
  | .pointwiseAffine shift scale, _, x =>
      (x.zip (shift.zip scale)).map (fun p => p.1 * p.2.2 + p.2.1)
  | t, y, x => ofwd t y x

/-- Forward log-abs-det of one transform: for the pointwise affine a
constant `palad shift scale`; otherwise the oracle `olad`. -/
def tFwdLad (palad : List ℚ → List ℚ → ℚ)
    (olad : Transform → List ℚ → List ℚ → ℚ) :
    Transform → List ℚ → List ℚ → ℚ
  | .pointwiseAffine shift scale, _, _ => palad shift scale
  | t, y, x => olad t y x

/-- `CompositeTransform.forward`: apply the transforms in list order,
summing their log-abs-dets. -/
def compFwdLP (ofwd : Transform → List ℚ → List ℚ → List ℚ)
    (olad : Transform → List ℚ → List ℚ → ℚ)
    (palad : List ℚ → List ℚ → ℚ) :
    List Transform → List ℚ → List ℚ → List ℚ × ℚ
  | [], _, x => (x, 0)
  | t :: ts, y, x =>
      let r := compFwdLP ofwd olad palad ts y (tFwdVal ofwd t y x)
      (r.1, tFwdLad palad olad t y x + r.2)

/-- `NormalizingFlow.log_prob(x, y)`: forward the composite and add the
base log-density of the resulting noise. -/
def nfLogProb (base : List ℚ → ℚ)
    (ofwd : Transform → List ℚ → List ℚ → List ℚ)
    (olad : Transform → List ℚ → List ℚ → ℚ)
    (palad : List ℚ → List ℚ → ℚ)
    (ts : List Transform) (x y : List ℚ) : ℚ :=
  let r := compFwdLP ofwd olad palad ts y x
  base r.1 + r.2

/-- Inverse value of one transform: the pointwise affine computes
`(z - shift) / scale` elementwise; every other transform is evaluated by
the oracle `oinv`. -/
def tInvVal (oinv : Transform → List ℚ → List ℚ → List ℚ) :
    Transform → List ℚ → List ℚ → List ℚ
  | .pointwiseAffine shift scale, _, z =>
      (z.zip (shift.zip scale)).map (fun p => (p.1 - p.2.1) / p.2.2)
  | t, y, z => oinv t y z

/-- `CompositeTransform.inverse`: apply the inverses in reverse list order
(the last listed transform is inverted first). -/
def compInvVal (oinv : Transform → List ℚ → List ℚ → List ℚ) :
    List Transform → List ℚ → List ℚ → List ℚ
  | [], _, z => z
  | t :: ts, y, z => tInvVal oinv t y (compInvVal oinv ts y z)

/-- The standardization map `(x - shift) / scale`, elementwise. -/
def standardize (shift scale x : List ℚ) : List ℚ :=
  (x.zip (shift.zip scale)).map (fun p => (p.1 - p.2.1) / p.2.2)

/-- A pseudo-random-generator state, threaded through calls to expose which
operations consume randomness. -/
abbrev RNG := Nat

/-- A `log_prob(x, y)` call as the program makes it: the log-density path
inverts transforms and evaluates the base density, drawing no randomness,
so the generator state passes through untouched. -/
def nfLogProbCall (base : List ℚ → ℚ)
    (ofwd : Transform → List ℚ → List ℚ → List ℚ)
    (olad : Transform → List ℚ → List ℚ → ℚ)
    (palad : List ℚ → List ℚ → ℚ)
    (ts : List Transform) (x y : List ℚ) (r : RNG) : ℚ × RNG :=
  (nfLogProb base ofwd olad palad ts x y, r)

/-! ### Concrete instances used in evaluation theorems -/

/-- A fixed stream of permutation draws. -/
def wPerms : Nat → List Nat := fun _ => [1, 0]

/-- A default affine construction. -/
def wA : MAFArgs := { xSize := 2, ySize := 3 }

/-- A construction with an unrecognized architecture tag. -/
def wASpline : MAFArgs := { xSize := 2, ySize := 3, architecture := "spline" }

/-- A PRQ construction. -/
def wAPRQ : MAFArgs := { xSize := 2, ySize := 3, architecture := "PRQ", numTransforms := 1 }

/-- A construction with standardization moments. -/
def wAMom : MAFArgs :=
  { xSize := 2, ySize := 3, numTransforms := 1, moments := some ([2, 4], [1, 2]) }

/-- A construction with all-zero shift and all-one scale. -/
def wAUnit : MAFArgs :=
  { xSize := 1, ySize := 1, numTransforms := 1, moments := some ([0], [1]) }

/-- A construction with an empty learnable stack. -/
def wAZero : MAFArgs := { xSize := 2, ySize := 3, numTransforms := 0 }

/-! ### Dictionary lemmas -/

lemma kget_kset_self (kw : Kwargs) (k : String) (v : Val) :
    kget (kset kw k v) k = some v := by
  simp [kget, kset]

lemma kget_kset_ne (kw : Kwargs) (k k0 : String) (v : Val) (h : k ≠ k0) :
    kget (kset kw k0 v) k = kget kw k := by
  simp [kget, kset, h]

lemma kget_ksetdefault_self (kw : Kwargs) (k : String) (v : Val) :
    kget (ksetdefault kw k v) k = some ((kget kw k).getD v) := by
  unfold ksetdefault
  cases h : kget kw k with
  | none => simp [h, kget_kset_self]
  | some w => simp [h]

lemma kget_ksetdefault_ne (kw : Kwargs) (k k0 : String) (v : Val) (h : k ≠ k0) :
    kget (ksetdefault kw k0 v) k = kget kw k := by
  unfold ksetdefault
  split
  · rfl
  · exact kget_kset_ne kw k k0 v h

/-! ### Loop lemmas -/

lemma arLoop_length (ar : Transform) (xs : Nat) (perms : Nat → List Nat) :
    ∀ (n i : Nat), (arLoop ar xs perms i n).length = 2 * n := by
  intro n
  induction n with
  | zero => intro i; rfl
  | succ n ih =>
      intro i
      simp only [arLoop, List.length_cons, ih (i + 1)]
      omega

lemma arLoop_get (ar : Transform) (xs : Nat) (perms : Nat → List Nat) :
    ∀ (n j i : Nat), j < n →
      (arLoop ar xs perms i n)[2 * j]? = some ar ∧
      (arLoop ar xs perms i n)[2 * j + 1]?
        = some (.randomPermutation xs (perms (i + j))) := by
  intro n
  induction n with
  | zero => intro j i hj; omega
  | succ n ih =>
      intro j i hj
      cases j with
      | zero => simp [arLoop]
      | succ j =>
          have h2 : 2 * (j + 1) = 2 * j + 1 + 1 := by omega
          have h3 : 2 * (j + 1) + 1 = (2 * j + 1) + 1 + 1 := by omega
          have := ih j (i + 1) (by omega)
          have harg : i + 1 + j = i + (j + 1) := by omega
          rw [harg] at this
          simp only [arLoop, h2, h3, List.getElem?_cons_succ]
          exact this

lemma mem_arLoop (ar : Transform) (xs : Nat) (perms : Nat → List Nat) :
    ∀ (n i : Nat) (t : Transform), t ∈ arLoop ar xs perms i n →
      t = ar ∨ ∃ j, t = Transform.randomPermutation xs (perms j) := by
  intro n
  induction n with
  | zero => intro i t ht; simp [arLoop] at ht
  | succ n ih =>
      intro i t ht
      simp only [arLoop, List.mem_cons] at ht
      rcases ht with h | h | h
      · exact Or.inl h
      · exact Or.inr ⟨i, h⟩
      · exact ih (i + 1) t h

lemma mafHead_length (a : MAFArgs) :
    (mafHead a).length = if a.moments.isSome then 1 else 0 := by
  unfold mafHead
  cases a.moments with
  | none => rfl
  | some ms => cases ms; rfl

lemma mafAR_arParams (a : MAFArgs) :
    (mafAR a).arParams? = some (a.xSize, a.ySize, mafKw a) := by
  unfold mafAR
  split
  · rfl
  · split
    · rfl
    · rfl

lemma maf_mem_ar (a : MAFArgs) (perms : Nat → List Nat) (t : Transform)
    (f c : Nat) (kw : Kwargs) (ht : t ∈ mafTransforms a perms)
    (hp : t.arParams? = some (f, c, kw)) :
    t = mafAR a ∧ f = a.xSize ∧ c = a.ySize ∧ kw = mafKw a := by
  unfold mafTransforms at ht
  rcases List.mem_append.1 ht with hh | hl
  · exfalso
    unfold mafHead at hh
    cases hmo : a.moments with
    | none => rw [hmo] at hh; simp at hh
    | some ms =>
        obtain ⟨sh, sc⟩ := ms
        rw [hmo] at hh
        simp only [List.mem_singleton] at hh
        subst hh
        simp [Transform.arParams?] at hp
  · rcases mem_arLoop (mafAR a) a.xSize perms a.numTransforms 0 t hl with h | ⟨j, h⟩
    · subst h
      rw [mafAR_arParams a] at hp
      have h1 : (a.xSize, a.ySize, mafKw a) = (f, c, kw) := Option.some.inj hp
      have h2 := congrArg Prod.fst h1
      have h3 := congrArg (fun p => p.2.1) h1
      have h4 := congrArg (fun p => p.2.2) h1
      exact ⟨rfl, h2.symm, h3.symm, h4.symm⟩
    · subst h
      simp [Transform.arParams?] at hp

lemma kget_kwCommon_hidden (kw : Kwargs) :
    kget (kwCommon kw) "hidden_features" = some ((kget kw "hidden_features").getD (.nat 64)) := by
  unfold kwCommon
  rw [kget_ksetdefault_ne _ _ _ _ (by decide), kget_ksetdefault_ne _ _ _ _ (by decide),
    kget_ksetdefault_ne _ _ _ _ (by decide), kget_ksetdefault_ne _ _ _ _ (by decide),
    kget_ksetdefault_self]

lemma kget_kwCommon_blocks (kw : Kwargs) :
    kget (kwCommon kw) "num_blocks" = some ((kget kw "num_blocks").getD (.nat 2)) := by
  unfold kwCommon
  rw [kget_ksetdefault_ne _ _ _ _ (by decide), kget_ksetdefault_ne _ _ _ _ (by decide),
    kget_ksetdefault_ne _ _ _ _ (by decide), kget_ksetdefault_self,
    kget_ksetdefault_ne _ _ _ _ (by decide)]

lemma kget_kwCommon_residual (kw : Kwargs) :
    kget (kwCommon kw) "use_residual_blocks"
      = some ((kget kw "use_residual_blocks").getD (.bool false)) := by
  unfold kwCommon
  rw [kget_ksetdefault_ne _ _ _ _ (by decide), kget_ksetdefault_ne _ _ _ _ (by decide),
    kget_ksetdefault_self, kget_ksetdefault_ne _ _ _ _ (by decide),
    kget_ksetdefault_ne _ _ _ _ (by decide)]

lemma kget_kwCommon_batchnorm (kw : Kwargs) :
    kget (kwCommon kw) "use_batch_norm"
      = some ((kget kw "use_batch_norm").getD (.bool false)) := by
  unfold kwCommon
  rw [kget_ksetdefault_ne _ _ _ _ (by decide), kget_ksetdefault_self,
    kget_ksetdefault_ne _ _ _ _ (by decide), kget_ksetdefault_ne _ _ _ _ (by decide),
    kget_ksetdefault_ne _ _ _ _ (by decide)]

lemma kget_kwCommon_activation (kw : Kwargs) :
    kget (kwCommon kw) "activation" = some ((kget kw "activation").getD (.fn "relu")) := by
  unfold kwCommon
  rw [kget_ksetdefault_self, kget_ksetdefault_ne _ _ _ _ (by decide),
    kget_ksetdefault_ne _ _ _ _ (by decide), kget_ksetdefault_ne _ _ _ _ (by decide),
    kget_ksetdefault_ne _ _ _ _ (by decide)]

lemma kget_kwCommon_other (kw : Kwargs) (k : String)
    (h1 : k ≠ "hidden_features") (h2 : k ≠ "num_blocks")
    (h3 : k ≠ "use_residual_blocks") (h4 : k ≠ "use_batch_norm")
    (h5 : k ≠ "activation") :
    kget (kwCommon kw) k = kget kw k := by
  unfold kwCommon
  rw [kget_ksetdefault_ne _ _ _ _ h5, kget_ksetdefault_ne _ _ _ _ h4,
    kget_ksetdefault_ne _ _ _ _ h3, kget_ksetdefault_ne _ _ _ _ h2,
    kget_ksetdefault_ne _ _ _ _ h1]

/-- The architecture branch only assigns keys outside the five common ones,
so those five read through to the common-default dictionary. -/
lemma kget_mafKw_of_common (a : MAFArgs) (k : String)
    (h1 : k ≠ "tails") (h2 : k ≠ "num_bins") (h3 : k ≠ "tail_bound")
    (h4 : k ≠ "integrand_net_layers") (h5 : k ≠ "cond_size") (h6 : k ≠ "nb_steps") :
    kget (mafKw a) k = kget (kwCommon a.kwargs) k := by
  unfold mafKw
  split
  · rw [kget_ksetdefault_ne _ _ _ _ h3, kget_ksetdefault_ne _ _ _ _ h2,
      kget_kset_ne _ _ _ _ h1]
  · split
    · rw [kget_ksetdefault_ne _ _ _ _ h6, kget_ksetdefault_ne _ _ _ _ h5,
        kget_ksetdefault_ne _ _ _ _ h4]
    · rfl

/-! ### Pointwise-affine semantics lemmas -/

lemma pointwise_standardize (sh sc x : List ℚ) :
    (x.zip ((vneg (vdiv sh sc)).zip (vinv sc))).map (fun p => p.1 * p.2.2 + p.2.1)
      = standardize sh sc x := by
  induction x generalizing sh sc with
  | nil => rfl
  | cons xh xt ih =>
      cases sh with
      | nil => simp [vdiv, vneg, standardize]
      | cons shh sht =>
          cases sc with
          | nil => simp [vdiv, vneg, vinv, standardize]
          | cons sch sct =>
              simp only [vdiv, vneg, vinv, List.zipWith_cons_cons, List.map_cons,
                List.zip_cons_cons, standardize]
              refine congrArg₂ _ ?_ ?_
              · rw [mul_one_div, ← sub_eq_add_neg, ← sub_div]
              · exact ih sht sct

lemma replicate_zip_map_id (d : Nat) (x : List ℚ) (hx : x.length = d) :
    (x.zip ((List.replicate d (0:ℚ)).zip (List.replicate d (1:ℚ)))).map
      (fun p => p.1 * p.2.2 + p.2.1) = x := by
  induction x generalizing d with
  | nil => rfl
  | cons xh xt ih =>
      cases d with
      | zero => simp at hx
      | succ d =>
          simp only [List.replicate, List.zip_cons_cons, List.map_cons]
          rw [ih d (by simpa using hx)]
          norm_num

lemma replicate_zip_map_id_inv (d : Nat) (z : List ℚ) (hz : z.length = d) :
    (z.zip ((List.replicate d (0:ℚ)).zip (List.replicate d (1:ℚ)))).map
      (fun p => (p.1 - p.2.1) / p.2.2) = z := by
  induction z generalizing d with
  | nil => rfl
  | cons zh zt ih =>
      cases d with
      | zero => simp at hz
      | succ d =>
          simp only [List.replicate, List.zip_cons_cons, List.map_cons]
          rw [ih d (by simpa using hz)]
          norm_num

lemma moments_unit_offset (d : Nat) :
    vneg (vdiv (List.replicate d (0:ℚ)) (List.replicate d 1)) = List.replicate d 0 := by
  induction d with
  | zero => rfl
  | succ d ih => simp [vdiv, vneg, List.replicate, ih]

lemma moments_unit_scale (d : Nat) :
    vinv (List.replicate d (1:ℚ)) = List.replicate d 1 := by
  simp [vinv, List.map_replicate]

/-! ### Stack-structure lemmas -/

lemma maf_no_pointwise_of_none (a : MAFArgs) (perms : Nat → List Nat)
    (hm : a.moments = none) (sh sc : List ℚ) :
    Transform.pointwiseAffine sh sc ∉ mafTransforms a perms := by
  intro h
  unfold mafTransforms at h
  simp only [mafHead, hm, List.nil_append] at h
  rcases mem_arLoop (mafAR a) a.xSize perms a.numTransforms 0 _ h with h1 | ⟨j, h1⟩
  · unfold mafAR at h1
    split at h1 <;> first | exact Transform.noConfusion h1 | skip
    split at h1 <;> exact Transform.noConfusion h1
  · exact Transform.noConfusion h1

lemma compInvVal_length (oinv : Transform → List ℚ → List ℚ → List ℚ)
    (hoinv : ∀ t w u, (oinv t w u).length = u.length)
    (L : List Transform) (y z : List ℚ)
    (hL : ∀ sh sc, Transform.pointwiseAffine sh sc ∉ L) :
    (compInvVal oinv L y z).length = z.length := by
  induction L with
  | nil => rfl
  | cons t ts ih =>
      have hts : ∀ sh sc, Transform.pointwiseAffine sh sc ∉ ts :=
        fun sh sc h => hL sh sc (List.mem_cons_of_mem _ h)
      have hrec := ih hts
      cases t with
      | pointwiseAffine sh sc => exact absurd (List.mem_cons_self _ _) (fun h => hL sh sc h)
      | maskedAffineAutoregressive f c kw =>
          simp only [compInvVal, tInvVal, hoinv, hrec]
      | maskedPRQAutoregressive f c kw =>
          simp only [compInvVal, tInvVal, hoinv, hrec]
      | maskedUMNNAutoregressive f c kw =>
          simp only [compInvVal, tInvVal, hoinv, hrec]
      | randomPermutation f p =>
          simp only [compInvVal, tInvVal, hoinv, hrec]

/-! ### Claim theorems -/

/-- Claim C1: for every context shape and every tuple `shape` of
non-negative extents, `NormalizingFlow.sample(y, shape)` reshapes without
error to `y.shape[:-1] + shape + (x_size,)`; in particular `shape = []`
yields `y.shape[:-1] + (x_size,)`. -/
theorem nfSample_shape_law (xSize : Nat) (yShape shape : Shape) :
    nfSampleShape xSize yShape shape = some (yShape.dropLast ++ shape ++ [xSize]) := by
  have h1 : numel ((1 :: yShape).dropLast) = numel yShape.dropLast := by
    cases yShape with
    | nil => rfl
    | cons a l => simp [numel, List.dropLast]
  simp only [nfSampleShape, underSample, viewShape]
  have hdrop :
      ([numel ((1 :: yShape).dropLast) * numel shape, xSize].drop
        ([numel ((1 :: yShape).dropLast) * numel shape, xSize].length - 1)) = [xSize] := rfl
  rw [hdrop, if_pos]
  simp only [numel, List.prod_append, List.prod_cons, List.prod_nil] at h1 ⊢
  rw [h1]

/-- Claim C8: with the transform parameters fixed, `log_prob` is
deterministic: two calls on equal inputs return equal values, and the call
leaves the random-generator state untouched (the log-density path draws no
randomness, unlike `sample`). -/
theorem nfLogProb_deterministic (base : List ℚ → ℚ)
    (ofwd : Transform → List ℚ → List ℚ → List ℚ)
    (olad : Transform → List ℚ → List ℚ → ℚ)
    (palad : List ℚ → List ℚ → ℚ)
    (ts : List Transform) (x y x2 y2 : List ℚ) (r r2 : RNG)
    (hx : x = x2) (hy : y = y2) :
    (nfLogProbCall base ofwd olad palad ts x y r).1
      = (nfLogProbCall base ofwd olad palad ts x2 y2 r2).1
    ∧ (nfLogProbCall base ofwd olad palad ts x y r).2 = r := by
  subst hx
  subst hy
  exact ⟨rfl, rfl⟩

/-- Claim C4: an architecture tag other than `"PRQ"` and `"UMNN"` raises no
validation error and selects the masked affine autoregressive family,
producing the same transform stack as `architecture = "affine"`. -/
theorem maf_unknown_tag_affine (a : MAFArgs) (perms : Nat → List Nat)
    (h1 : a.architecture ≠ "PRQ") (h2 : a.architecture ≠ "UMNN") :
    mafAR a = .maskedAffineAutoregressive a.xSize a.ySize (mafKw a)
    ∧ mafTransforms a perms = mafTransforms {a with architecture := "affine"} perms := by
  have hkw : mafKw a = kwCommon a.kwargs := by
    unfold mafKw
    rw [if_neg h1, if_neg h2]
  have hkwa : mafKw {a with architecture := "affine"} = kwCommon a.kwargs := by
    simp [mafKw]
  have har : mafAR a = .maskedAffineAutoregressive a.xSize a.ySize (mafKw a) := by
    unfold mafAR
    rw [if_neg h1, if_neg h2]
  have hara : mafAR {a with architecture := "affine"}
      = Transform.maskedAffineAutoregressive a.xSize a.ySize (kwCommon a.kwargs) := by
    simp [mafAR, hkwa]
  refine ⟨har, ?_⟩
  unfold mafTransforms
  rw [har, hkw, hara]
  rfl

/-- Claim C2: the assembled stack has length `num_transforms * 2` (plus one
when moments are supplied), and each iteration contributes the selected
autoregressive transform followed by the permutation drawn for it. -/
theorem maf_stack_layout (a : MAFArgs) (perms : Nat → List Nat) (j : Nat)
    (_hn : 1 ≤ a.numTransforms) (hj : j < a.numTransforms) :
    (mafTransforms a perms).length
        = a.numTransforms * 2 + (if a.moments.isSome then 1 else 0)
    ∧ (mafTransforms a perms)[(if a.moments.isSome then 1 else 0) + 2 * j]?
        = some (mafAR a)
    ∧ (mafTransforms a perms)[(if a.moments.isSome then 1 else 0) + 2 * j + 1]?
        = some (.randomPermutation a.xSize (perms j)) := by
  have hlen := mafHead_length a
  have hgets := arLoop_get (mafAR a) a.xSize perms a.numTransforms j 0 hj
  refine ⟨?_, ?_, ?_⟩
  · unfold mafTransforms
    rw [List.length_append, hlen, arLoop_length]
    omega
  · unfold mafTransforms
    rw [List.getElem?_append_right (by rw [hlen]; omega), hlen]
    have he : (if a.moments.isSome then 1 else 0) + 2 * j
        - (if a.moments.isSome then 1 else 0) = 2 * j := by omega
    rw [he]
    simpa using hgets.1
  · unfold mafTransforms
    rw [List.getElem?_append_right (by rw [hlen]; omega), hlen]
    have he : (if a.moments.isSome then 1 else 0) + 2 * j + 1
        - (if a.moments.isSome then 1 else 0) = 2 * j + 1 := by omega
    rw [he]
    simpa using hgets.2

/-- Claim C3: when `moments = (shift, scale)` is supplied, the first stack
element — ahead of every learnable transform — is the fixed pointwise
affine transform with offset `-shift / scale` and scale `1 / scale`, whose
forward map computes `(x - shift) / scale`. -/
theorem maf_moments_head (a : MAFArgs) (perms : Nat → List Nat)
    (sh sc : List ℚ) (ofwd : Transform → List ℚ → List ℚ → List ℚ) (y x : List ℚ)
    (hm : a.moments = some (sh, sc)) :
    (mafTransforms a perms).head?
        = some (.pointwiseAffine (vneg (vdiv sh sc)) (vinv sc))
    ∧ tFwdVal ofwd (.pointwiseAffine (vneg (vdiv sh sc)) (vinv sc)) y x
        = standardize sh sc x := by
  constructor
  · unfold mafTransforms mafHead
    rw [hm]
    rfl
  · simp only [tFwdVal]
    exact pointwise_standardize sh sc x

/-- Claim C5: under `architecture = "PRQ"` every constructed autoregressive
transform receives `tails = "linear"` unconditionally (overriding any
caller-supplied value), and `num_bins = 8` and `tail_bound = 1` unless the
caller supplied those keys. -/
theorem maf_prq_options (a : MAFArgs) (perms : Nat → List Nat) (t : Transform)
    (f c : Nat) (kw : Kwargs) (harch : a.architecture = "PRQ")
    (ht : t ∈ mafTransforms a perms) (hp : t.arParams? = some (f, c, kw)) :
    kget kw "tails" = some (.str "linear")
    ∧ kget kw "num_bins" = some ((kget a.kwargs "num_bins").getD (.nat 8))
    ∧ kget kw "tail_bound" = some ((kget a.kwargs "tail_bound").getD (.rat 1)) := by
  obtain ⟨-, -, -, hkw⟩ := maf_mem_ar a perms t f c kw ht hp
  subst hkw
  have hkm : mafKw a
      = ksetdefault (ksetdefault (kset (kwCommon a.kwargs) "tails" (.str "linear"))
          "num_bins" (.nat 8)) "tail_bound" (.rat 1) := by
    unfold mafKw
    rw [if_pos harch]
  rw [hkm]
  refine ⟨?_, ?_, ?_⟩
  · rw [kget_ksetdefault_ne _ _ _ _ (by decide), kget_ksetdefault_ne _ _ _ _ (by decide),
      kget_kset_self]
  · rw [kget_ksetdefault_ne _ _ _ _ (by decide), kget_ksetdefault_self,
      kget_kset_ne _ _ _ _ (by decide),
      kget_kwCommon_other _ _ (by decide) (by decide) (by decide) (by decide) (by decide)]
  · rw [kget_ksetdefault_self, kget_ksetdefault_ne _ _ _ _ (by decide),
      kget_kset_ne _ _ _ _ (by decide),
      kget_kwCommon_other _ _ (by decide) (by decide) (by decide) (by decide) (by decide)]

/-- Claim C6: whatever the architecture tag, the keyword options handed to
each autoregressive transform carry `hidden_features = 64`,
`num_blocks = 2`, `use_residual_blocks = false`, `use_batch_norm = false`
and the ReLU activation, each replaced by the caller's value when one was
supplied. -/
theorem maf_common_defaults (a : MAFArgs) (perms : Nat → List Nat) (t : Transform)
    (f c : Nat) (kw : Kwargs)
    (ht : t ∈ mafTransforms a perms) (hp : t.arParams? = some (f, c, kw)) :
    kget kw "hidden_features" = some ((kget a.kwargs "hidden_features").getD (.nat 64))
    ∧ kget kw "num_blocks" = some ((kget a.kwargs "num_blocks").getD (.nat 2))
    ∧ kget kw "use_residual_blocks"
        = some ((kget a.kwargs "use_residual_blocks").getD (.bool false))
    ∧ kget kw "use_batch_norm"
        = some ((kget a.kwargs "use_batch_norm").getD (.bool false))
    ∧ kget kw "activation" = some ((kget a.kwargs "activation").getD (.fn "relu")) := by
  obtain ⟨-, -, -, hkw⟩ := maf_mem_ar a perms t f c kw ht hp
  subst hkw
  refine ⟨?_, ?_, ?_, ?_, ?_⟩
  · rw [kget_mafKw_of_common a _ (by decide) (by decide) (by decide) (by decide)
      (by decide) (by decide), kget_kwCommon_hidden]
  · rw [kget_mafKw_of_common a _ (by decide) (by decide) (by decide) (by decide)
      (by decide) (by decide), kget_kwCommon_blocks]
  · rw [kget_mafKw_of_common a _ (by decide) (by decide) (by decide) (by decide)
      (by decide) (by decide), kget_kwCommon_residual]
  · rw [kget_mafKw_of_common a _ (by decide) (by decide) (by decide) (by decide)
      (by decide) (by decide), kget_kwCommon_batchnorm]
  · rw [kget_mafKw_of_common a _ (by decide) (by decide) (by decide) (by decide)
      (by decide) (by decide), kget_kwCommon_activation]

/-- Claim C10: within one construction, any two autoregressive transform
instances in the stack are equal — every block carries
`features = x_size`, `context_features = y_size` and the same accumulated
keyword options. -/
theorem maf_ar_uniform (a : MAFArgs) (perms : Nat → List Nat) (t1 t2 : Transform)
    (f1 c1 f2 c2 : Nat) (kw1 kw2 : Kwargs)
    (h1 : t1 ∈ mafTransforms a perms) (hp1 : t1.arParams? = some (f1, c1, kw1))
    (h2 : t2 ∈ mafTransforms a perms) (hp2 : t2.arParams? = some (f2, c2, kw2)) :
    t1 = t2 ∧ f1 = a.xSize ∧ c1 = a.ySize ∧ kw1 = mafKw a
    ∧ f1 = f2 ∧ c1 = c2 ∧ kw1 = kw2 := by
  obtain ⟨e1, e2, e3, e4⟩ := maf_mem_ar a perms t1 f1 c1 kw1 h1 hp1
  obtain ⟨g1, g2, g3, g4⟩ := maf_mem_ar a perms t2 f2 c2 kw2 h2 hp2
  exact ⟨e1.trans g1.symm, e2, e3, e4, e2.trans g2.symm, e3.trans g3.symm,
    e4.trans g4.symm⟩

/-- Claim C9: with `num_transforms = 0` construction succeeds and the stack
reduces to the optional standardization head alone; `log_prob` is then the
base standard-normal log-density of the (optionally standardized) input
plus the head's constant log-abs-det, with no dependence on the context. -/
theorem maf_no_transforms (a : MAFArgs) (perms : Nat → List Nat)
    (base : List ℚ → ℚ) (ofwd : Transform → List ℚ → List ℚ → List ℚ)
    (olad : Transform → List ℚ → List ℚ → ℚ) (palad : List ℚ → List ℚ → ℚ)
    (sh sc x y y2 : List ℚ) (h0 : a.numTransforms = 0) :
    mafTransforms a perms = mafHead a
    ∧ nfLogProb base ofwd olad palad (mafTransforms a perms) x y
        = nfLogProb base ofwd olad palad (mafTransforms a perms) x y2
    ∧ nfLogProb base ofwd olad palad [] x y = base x
    ∧ nfLogProb base ofwd olad palad
        [.pointwiseAffine (vneg (vdiv sh sc)) (vinv sc)] x y
        = base (standardize sh sc x) + palad (vneg (vdiv sh sc)) (vinv sc) := by
  have hstack : mafTransforms a perms = mafHead a := by
    unfold mafTransforms
    rw [h0]
    simp [arLoop]
  refine ⟨hstack, ?_, ?_, ?_⟩
  · rw [hstack]
    unfold mafHead
    cases hmo : a.moments with
    | none => rfl
    | some ms =>
        obtain ⟨s1, s2⟩ := ms
        rfl
  · simp [nfLogProb, compFwdLP]
  · simp only [nfLogProb, compFwdLP, tFwdVal, tFwdLad]
    rw [pointwise_standardize, add_zero]

/-- Claim C7: supplying `moments = (zeros, ones)` prepends a transform
whose forward and inverse are the identity on length-`d` vectors and whose
log-abs-det is zero, so — holding the learnable parameters, permutations
and oracles fixed — the flow has the same log-density and the same sampler
pushforward as the one constructed with `moments = None`. -/
theorem maf_unit_moments (a : MAFArgs) (perms : Nat → List Nat) (d : Nat)
    (base : List ℚ → ℚ) (ofwd : Transform → List ℚ → List ℚ → List ℚ)
    (olad : Transform → List ℚ → List ℚ → ℚ) (palad : List ℚ → List ℚ → ℚ)
    (oinv : Transform → List ℚ → List ℚ → List ℚ)
    (x y z : List ℚ)
    (hm : a.moments = some (List.replicate d 0, List.replicate d 1))
    (hlad : palad (List.replicate d 0) (List.replicate d 1) = 0)
    (hoinv : ∀ t w u, (oinv t w u).length = u.length)
    (hx : x.length = d) (hz : z.length = d) :
    mafTransforms a perms
        = .pointwiseAffine (List.replicate d 0) (List.replicate d 1)
            :: mafTransforms {a with moments := none} perms
    ∧ nfLogProb base ofwd olad palad (mafTransforms a perms) x y
        = nfLogProb base ofwd olad palad (mafTransforms {a with moments := none} perms) x y
    ∧ compInvVal oinv (mafTransforms a perms) y z
        = compInvVal oinv (mafTransforms {a with moments := none} perms) y z := by
  have hstruct : mafTransforms a perms
      = Transform.pointwiseAffine (List.replicate d 0) (List.replicate d 1)
          :: mafTransforms {a with moments := none} perms := by
    unfold mafTransforms
    simp only [mafHead, hm, moments_unit_offset, moments_unit_scale]
    rfl
  refine ⟨hstruct, ?_, ?_⟩
  · rw [hstruct]
    simp only [nfLogProb, compFwdLP, tFwdVal, tFwdLad]
    rw [replicate_zip_map_id d x hx, hlad, zero_add]
  · rw [hstruct]
    simp only [compInvVal, tInvVal]
    have hlenL : (compInvVal oinv (mafTransforms {a with moments := none} perms) y z).length
        = d := by
      rw [compInvVal_length oinv hoinv _ y z
        (fun s1 s2 => maf_no_pointwise_of_none _ perms rfl s1 s2), hz]
    exact replicate_zip_map_id_inv d _ hlenL

/-! ### Evaluation witnesses -/

/-- Witness for claim C2 at a concrete construction. -/
theorem maf_stack_layout_witness :
    (mafTransforms wA wPerms).length
        = wA.numTransforms * 2 + (if wA.moments.isSome then 1 else 0)
    ∧ (mafTransforms wA wPerms)[(if wA.moments.isSome then 1 else 0) + 2 * 0]?
        = some (mafAR wA)
    ∧ (mafTransforms wA wPerms)[(if wA.moments.isSome then 1 else 0) + 2 * 0 + 1]?
        = some (.randomPermutation wA.xSize (wPerms 0)) :=
  maf_stack_layout wA wPerms 0 (by decide) (by decide)

/-- Witness for claim C3 at a concrete construction. -/
theorem maf_moments_head_witness :
    (mafTransforms wAMom wPerms).head?
        = some (.pointwiseAffine (vneg (vdiv [2, 4] [1, 2])) (vinv [1, 2]))
    ∧ tFwdVal (fun _ _ v => v)
        (.pointwiseAffine (vneg (vdiv [2, 4] [1, 2])) (vinv [1, 2])) [5] [3, 8]
        = standardize [2, 4] [1, 2] [3, 8] :=
  maf_moments_head wAMom wPerms [2, 4] [1, 2] (fun _ _ v => v) [5] [3, 8] rfl

/-- Witness for claim C4 at a concrete construction. -/
theorem maf_unknown_tag_affine_witness :
    mafAR wASpline
        = .maskedAffineAutoregressive wASpline.xSize wASpline.ySize (mafKw wASpline)
    ∧ mafTransforms wASpline wPerms
        = mafTransforms {wASpline with architecture := "affine"} wPerms :=
  maf_unknown_tag_affine wASpline wPerms (by decide) (by decide)

/-- Witness for claim C5 at a concrete construction. -/
theorem maf_prq_options_witness :
    kget (mafKw wAPRQ) "tails" = some (.str "linear")
    ∧ kget (mafKw wAPRQ) "num_bins" = some ((kget wAPRQ.kwargs "num_bins").getD (.nat 8))
    ∧ kget (mafKw wAPRQ) "tail_bound"
        = some ((kget wAPRQ.kwargs "tail_bound").getD (.rat 1)) :=
  maf_prq_options wAPRQ wPerms (mafAR wAPRQ) wAPRQ.xSize wAPRQ.ySize (mafKw wAPRQ)
    rfl (List.mem_cons_self _ _) (mafAR_arParams wAPRQ)

/-- Witness for claim C6 at a concrete construction. -/
theorem maf_common_defaults_witness :
    kget (mafKw wA) "hidden_features"
        = some ((kget wA.kwargs "hidden_features").getD (.nat 64))
    ∧ kget (mafKw wA) "num_blocks" = some ((kget wA.kwargs "num_blocks").getD (.nat 2))
    ∧ kget (mafKw wA) "use_residual_blocks"
        = some ((kget wA.kwargs "use_residual_blocks").getD (.bool false))
    ∧ kget (mafKw wA) "use_batch_norm"
        = some ((kget wA.kwargs "use_batch_norm").getD (.bool false))
    ∧ kget (mafKw wA) "activation" = some ((kget wA.kwargs "activation").getD (.fn "relu")) :=
  maf_common_defaults wA wPerms (mafAR wA) wA.xSize wA.ySize (mafKw wA)
    (List.mem_cons_self _ _) (mafAR_arParams wA)

/-- Witness for claim C7 at a concrete construction. -/
theorem maf_unit_moments_witness :
    mafTransforms wAUnit wPerms
        = .pointwiseAffine (List.replicate 1 0) (List.replicate 1 1)
            :: mafTransforms {wAUnit with moments := none} wPerms
    ∧ nfLogProb (fun _ => 0) (fun _ _ v => v) (fun _ _ _ => 0) (fun _ _ => 0)
        (mafTransforms wAUnit wPerms) [3] [4]
        = nfLogProb (fun _ => 0) (fun _ _ v => v) (fun _ _ _ => 0) (fun _ _ => 0)
        (mafTransforms {wAUnit with moments := none} wPerms) [3] [4]
    ∧ compInvVal (fun _ _ u => u) (mafTransforms wAUnit wPerms) [4] [5]
        = compInvVal (fun _ _ u => u) (mafTransforms {wAUnit with moments := none} wPerms)
            [4] [5] :=
  maf_unit_moments wAUnit wPerms 1 (fun _ => 0) (fun _ _ v => v) (fun _ _ _ => 0)
    (fun _ _ => 0) (fun _ _ u => u) [3] [4] [5] rfl rfl (fun _ _ _ => rfl) rfl rfl

/-- Witness for claim C8 at a concrete call pair. -/
theorem nfLogProb_deterministic_witness :
    (nfLogProbCall (fun _ => 0) (fun _ _ v => v) (fun _ _ _ => 0) (fun _ _ => 0)
        (mafTransforms wA wPerms) [1, 2] [3] 5).1
      = (nfLogProbCall (fun _ => 0) (fun _ _ v => v) (fun _ _ _ => 0) (fun _ _ => 0)
        (mafTransforms wA wPerms) [1, 2] [3] 7).1
    ∧ (nfLogProbCall (fun _ => 0) (fun _ _ v => v) (fun _ _ _ => 0) (fun _ _ => 0)
        (mafTransforms wA wPerms) [1, 2] [3] 5).2 = 5 :=
  nfLogProb_deterministic (fun _ => 0) (fun _ _ v => v) (fun _ _ _ => 0) (fun _ _ => 0)
    (mafTransforms wA wPerms) [1, 2] [3] [1, 2] [3] 5 7 rfl rfl

/-- Witness for claim C9 at a concrete construction. -/
theorem maf_no_transforms_witness :
    mafTransforms wAZero wPerms = mafHead wAZero
    ∧ nfLogProb (fun _ => 0) (fun _ _ v => v) (fun _ _ _ => 0) (fun _ _ => 0)
        (mafTransforms wAZero wPerms) [3, 8] [5]
        = nfLogProb (fun _ => 0) (fun _ _ v => v) (fun _ _ _ => 0) (fun _ _ => 0)
        (mafTransforms wAZero wPerms) [3, 8] [6]
    ∧ nfLogProb (fun _ => 0) (fun _ _ v => v) (fun _ _ _ => 0) (fun _ _ => 0) [] [3, 8] [5]
        = (0 : ℚ)
    ∧ nfLogProb (fun _ => 0) (fun _ _ v => v) (fun _ _ _ => 0) (fun _ _ => 0)
        [.pointwiseAffine (vneg (vdiv [2, 4] [1, 2])) (vinv [1, 2])] [3, 8] [5]
        = (0 : ℚ) + (0 : ℚ) :=
  maf_no_transforms wAZero wPerms (fun _ => 0) (fun _ _ v => v) (fun _ _ _ => 0)
    (fun _ _ => 0) [2, 4] [1, 2] [3, 8] [5] [6] rfl

/-- Witness for claim C10 at a concrete construction. -/
theorem maf_ar_uniform_witness :
    mafAR wA = mafAR wA ∧ wA.xSize = wA.xSize ∧ wA.ySize = wA.ySize
    ∧ mafKw wA = mafKw wA ∧ wA.xSize = wA.xSize ∧ wA.ySize = wA.ySize
    ∧ mafKw wA = mafKw wA :=
  maf_ar_uniform wA wPerms (mafAR wA) (mafAR wA) wA.xSize wA.ySize wA.xSize wA.ySize
    (mafKw wA) (mafKw wA) (List.mem_cons_self _ _) (mafAR_arParams wA)
    (List.mem_cons_self _ _) (mafAR_arParams wA)

end Lampe
